import Mathlib

/-!
Verification of the options-strategies analytics engine (`src/api/strategies.py`).

The pricing engine (`BlackScholes`) and the strategy aggregator
(`OptionsStrategy`) are embedded shallowly over `ℝ`: `scipy.stats.norm.cdf`
becomes the Gaussian integral `normCdf`, NumPy vectorised operations become
`List.map`, and the Python `for` loops that accumulate payoffs, Greeks and
break-evens become `List.foldl`.
-/

open MeasureTheory Set Filter Topology

open scoped Classical

noncomputable section

/-! ## Standard normal distribution (embedding of `scipy.stats.norm`) -/

/-- Standard normal probability density function (`scipy.stats.norm.pdf`). -/
def normPdf (x : ℝ) : ℝ := (Real.sqrt (2 * Real.pi))⁻¹ * Real.exp (-(x ^ 2 / 2))

/-- Standard normal cumulative distribution function (`scipy.stats.norm.cdf`). -/
def normCdf (x : ℝ) : ℝ := ∫ t in Iic x, normPdf t

/-! ## Black-Scholes pricing engine (class `BlackScholes` in `strategies.py`) -/

namespace BlackScholes

/-- The quantity `d1` shared by all the pricing formulas. -/
def bs_d1 (S K T r sigma q : ℝ) : ℝ :=
  (Real.log (S / K) + (r - q + 0.5 * sigma ^ 2) * T) / (sigma * Real.sqrt T)

/-- The quantity `d2 = d1 - sigma*sqrt(T)`. -/
def bs_d2 (S K T r sigma q : ℝ) : ℝ :=
  bs_d1 S K T r sigma q - sigma * Real.sqrt T

/-- The unfloored Black-Scholes call value (local variable `call` in `call_price`). -/
def bs_call_value (S K T r sigma q : ℝ) : ℝ :=
  S * Real.exp (-q * T) * normCdf (bs_d1 S K T r sigma q)
    - K * Real.exp (-r * T) * normCdf (bs_d2 S K T r sigma q)

/-- The unfloored Black-Scholes put value (local variable `put` in `put_price`). -/
def bs_put_value (S K T r sigma q : ℝ) : ℝ :=
  K * Real.exp (-r * T) * normCdf (-(bs_d2 S K T r sigma q))
    - S * Real.exp (-q * T) * normCdf (-(bs_d1 S K T r sigma q))

/-- Embeds `BlackScholes.call_price`. -/
def call_price (S K T r sigma q : ℝ) : ℝ :=
  if T ≤ 0 ∨ sigma ≤ 0 then max (S - K) 0
  else max (bs_call_value S K T r sigma q) 0

/-- Embeds `BlackScholes.put_price`. -/
def put_price (S K T r sigma q : ℝ) : ℝ :=
  if T ≤ 0 ∨ sigma ≤ 0 then max (K - S) 0
  else max (bs_put_value S K T r sigma q) 0

/-- Embeds `BlackScholes.delta`. -/
def delta (S K T r sigma : ℝ) (option_type : String) (q : ℝ) : ℝ :=
  if T ≤ 0 then (if S > K ∧ option_type = "call" then 1 else 0)
  else if option_type = "call" then
    Real.exp (-q * T) * normCdf (bs_d1 S K T r sigma q)
  else -Real.exp (-q * T) * normCdf (-(bs_d1 S K T r sigma q))

/-- Embeds `BlackScholes.gamma`. -/
def gamma (S K T r sigma q : ℝ) : ℝ :=
  if T ≤ 0 then 0
  else Real.exp (-q * T) * normPdf (bs_d1 S K T r sigma q) / (S * sigma * Real.sqrt T)

/-- Embeds `BlackScholes.theta`. -/
def theta (S K T r sigma : ℝ) (option_type : String) (q : ℝ) : ℝ :=
  if T ≤ 0 then 0
  else
    let d1 := bs_d1 S K T r sigma q
    let d2 := bs_d2 S K T r sigma q
    let term1 := -(S * normPdf d1 * sigma * Real.exp (-q * T)) / (2 * Real.sqrt T)
    if option_type = "call" then
      let term2 := r * K * Real.exp (-r * T) * normCdf d2
      let term3 := -q * S * Real.exp (-q * T) * normCdf d1
      (term1 - term2 + term3) / 365
    else
      let term2 := r * K * Real.exp (-r * T) * normCdf (-d2)
      let term3 := q * S * Real.exp (-q * T) * normCdf (-d1)
      (term1 + term2 - term3) / 365

/-- Embeds `BlackScholes.vega`. -/
def vega (S K T r sigma q : ℝ) : ℝ :=
  if T ≤ 0 then 0
  else S * Real.exp (-q * T) * normPdf (bs_d1 S K T r sigma q) * Real.sqrt T / 100

/-- Embeds `BlackScholes.rho`. -/
def rho (S K T r sigma : ℝ) (option_type : String) (q : ℝ) : ℝ :=
  if T ≤ 0 then 0
  else if option_type = "call" then
    K * T * Real.exp (-r * T) * normCdf (bs_d2 S K T r sigma q) / 100
  else -K * T * Real.exp (-r * T) * normCdf (-(bs_d2 S K T r sigma q)) / 100

end BlackScholes

/-! ## Data structures (`MarketParams`, `OptionLeg`, `StockLeg`) -/

/-- Dataclass `MarketParams`. -/
structure MarketParams where
  risk_free_rate : ℝ
  volatility : ℝ
  dividend_yield : ℝ
  days_to_expiration : ℤ

/-- Dataclass `OptionLeg`. -/
structure OptionLeg where
  option_type : String
  position : String
  strike : ℝ
  premium : ℝ

/-- Dataclass `StockLeg`. -/
structure StockLeg where
  position : String
  price : ℝ
  quantity : ℤ

/-- The result of `OptionsStrategy.greeks` (a dict in Python). -/
structure Greeks where
  delta : ℝ
  gamma : ℝ
  theta : ℝ
  vega : ℝ
  rho : ℝ

/-- The dict returned by `OptionsStrategy.analyze`. -/
structure AnalysisResult where
  current_pnl : ℝ
  max_profit_at_expiration : ℝ
  max_loss_at_expiration : ℝ
  break_even_at_expiration : List ℝ
  greeks : Greeks

/-- Class `OptionsStrategy`: a name, option legs, stock legs, market parameters. -/
structure OptionsStrategy where
  name : String
  option_legs : List OptionLeg
  stock_legs : List StockLeg
  market_params : MarketParams

/-- NumPy `np.linspace(a, b, n)`: `n` equally spaced points from `a` to `b` inclusive. -/
def linspace (a b : ℝ) (n : ℕ) : List ℝ :=
  (List.range n).map (fun i : ℕ => a + (b - a) * (i : ℝ) / ((n : ℝ) - 1))

/-- NumPy `np.max` on a (nonempty) array: left fold of `max`. -/
def listMax : List ℝ → ℝ
  | [] => 0
  | x :: xs => xs.foldl max x

/-- NumPy `np.min` on a (nonempty) array: left fold of `min`. -/
def listMin : List ℝ → ℝ
  | [] => 0
  | x :: xs => xs.foldl min x

/-- The linear interpolation of the zero crossing between grid points `i` and
`i+1` used for break-evens in `OptionsStrategy.analyze`:
`be = S_i - payoff_i * (S_{i+1} - S_i) / (payoff_{i+1} - payoff_i)`. -/
def interpBE (S_range payoffs : List ℝ) (i : ℕ) : ℝ :=
  S_range.getD i 0 - payoffs.getD i 0 * (S_range.getD (i+1) 0 - S_range.getD i 0)
    / (payoffs.getD (i+1) 0 - payoffs.getD i 0)

/-- The indices `i` of consecutive grid pairs whose payoffs change sign strictly
(the pairs from which `analyze` emits a break-even). -/
def signChangeIdx (payoffs : List ℝ) : List ℕ :=
  (List.range (payoffs.length - 1)).filter
    (fun i => payoffs.getD i 0 * payoffs.getD (i+1) 0 < 0)

namespace OptionsStrategy

/-- Embeds `OptionsStrategy.add_option_leg`: unconditionally appends the new leg. -/
def add_option_leg (s : OptionsStrategy) (option_type position : String)
    (strike premium : ℝ) : OptionsStrategy :=
  { s with option_legs := s.option_legs ++ [⟨option_type, position, strike, premium⟩] }

/-- Embeds `OptionsStrategy.add_stock_leg`: unconditionally appends the new leg. -/
def add_stock_leg (s : OptionsStrategy) (position : String) (price : ℝ)
    (quantity : ℤ) : OptionsStrategy :=
  { s with stock_legs := s.stock_legs ++ [⟨position, price, quantity⟩] }

/-- Embeds `OptionsStrategy.payoff_at_expiration`, element-wise (NumPy applies the
same arithmetic to every entry of the price array). -/
def payoff_at_expiration (s : OptionsStrategy) (S_T : ℝ) : ℝ :=
  let stockPayoff := s.stock_legs.foldl (fun payoff leg =>
    if leg.position = "long" then payoff + (S_T - leg.price) * (leg.quantity : ℝ)
    else payoff + (leg.price - S_T) * (leg.quantity : ℝ)) 0
  s.option_legs.foldl (fun payoff leg =>
    let intrinsic := if leg.option_type = "call" then max (S_T - leg.strike) 0
      else max (leg.strike - S_T) 0
    if leg.position = "long" then payoff + (intrinsic - leg.premium) * 100
    else payoff + (leg.premium - intrinsic) * 100) stockPayoff

/-- Embeds `OptionsStrategy.current_pnl`. -/
def current_pnl (s : OptionsStrategy) (S : ℝ) : ℝ :=
  let T := (s.market_params.days_to_expiration : ℝ) / 365
  let stockPnl := s.stock_legs.foldl (fun pnl leg =>
    if leg.position = "long" then pnl + (S - leg.price) * (leg.quantity : ℝ)
    else pnl + (leg.price - S) * (leg.quantity : ℝ)) 0
  s.option_legs.foldl (fun pnl leg =>
    let current_value :=
      if leg.option_type = "call" then
        BlackScholes.call_price S leg.strike T s.market_params.risk_free_rate
          s.market_params.volatility s.market_params.dividend_yield
      else
        BlackScholes.put_price S leg.strike T s.market_params.risk_free_rate
          s.market_params.volatility s.market_params.dividend_yield
    if leg.position = "long" then pnl + (current_value - leg.premium) * 100
    else pnl + (leg.premium - current_value) * 100) stockPnl

/-- The body of the stock-leg loop in `OptionsStrategy.greeks`: only the delta
entry of the accumulator dict is updated. -/
def stockGreeksStep (g : Greeks) (leg : StockLeg) : Greeks :=
  let multiplier : ℝ := if leg.position = "long" then 1 else -1
  { g with delta := g.delta + (leg.quantity : ℝ) * multiplier }

/-- The body of the option-leg loop in `OptionsStrategy.greeks`: every entry of
the accumulator dict is incremented by `multiplier * greek * 100`. -/
def optionGreeksStep (S T : ℝ) (mp : MarketParams) (g : Greeks)
    (leg : OptionLeg) : Greeks :=
  let multiplier : ℝ := if leg.position = "long" then 1 else -1
  { delta := g.delta + multiplier * BlackScholes.delta S leg.strike T
      mp.risk_free_rate mp.volatility leg.option_type mp.dividend_yield * 100,
    gamma := g.gamma + multiplier * BlackScholes.gamma S leg.strike T
      mp.risk_free_rate mp.volatility mp.dividend_yield * 100,
    theta := g.theta + multiplier * BlackScholes.theta S leg.strike T
      mp.risk_free_rate mp.volatility leg.option_type mp.dividend_yield * 100,
    vega := g.vega + multiplier * BlackScholes.vega S leg.strike T
      mp.risk_free_rate mp.volatility mp.dividend_yield * 100,
    rho := g.rho + multiplier * BlackScholes.rho S leg.strike T
      mp.risk_free_rate mp.volatility leg.option_type mp.dividend_yield * 100 }

/-- Embeds `OptionsStrategy.greeks`. -/
def greeks (s : OptionsStrategy) (S : ℝ) : Greeks :=
  let T := (s.market_params.days_to_expiration : ℝ) / 365
  let g1 := s.stock_legs.foldl stockGreeksStep ⟨0, 0, 0, 0, 0⟩
  s.option_legs.foldl (optionGreeksStep S T s.market_params) g1

/-- Embeds `OptionsStrategy.analyze`. -/
def analyze (s : OptionsStrategy) (S : ℝ) : AnalysisResult :=
  let S_range := linspace (S * 0.5) (S * 1.5) 500
  let payoffs := S_range.map (s.payoff_at_expiration)
  let break_evens := (List.range (payoffs.length - 1)).foldl (fun acc i =>
    if payoffs.getD i 0 * payoffs.getD (i+1) 0 < 0 then
      acc ++ [interpBE S_range payoffs i]
    else acc) []
  { current_pnl := s.current_pnl S
    max_profit_at_expiration := listMax payoffs
    max_loss_at_expiration := listMin payoffs
    break_even_at_expiration := break_evens
    greeks := s.greeks S }

end OptionsStrategy

/-! ## Example strategies used as concrete instances -/

/-- A fixed set of market parameters (the dataclass defaults). -/
def defaultParams : MarketParams :=
  { risk_free_rate := 0.05, volatility := 0.25, dividend_yield := 0,
    days_to_expiration := 30 }

/-- A strategy with no legs. -/
def emptyStrategy : OptionsStrategy :=
  { name := "Empty", option_legs := [], stock_legs := [],
    market_params := defaultParams }

/-- A strategy holding one option leg with unrecognized tags. -/
def bananaStrategy : OptionsStrategy :=
  { name := "Banana", option_legs := [⟨"banana", "flat", 2, 0⟩], stock_legs := [],
    market_params := defaultParams }

/-- The same strategy with the tags spelled `put`/`short`. -/
def putShortStrategy : OptionsStrategy :=
  { name := "PutShort", option_legs := [⟨"put", "short", 2, 0⟩], stock_legs := [],
    market_params := defaultParams }

/-- A strategy holding a single long share (quantity 1) bought at price 1. -/
def stockStrategy : OptionsStrategy :=
  { name := "Stock", option_legs := [], stock_legs := [⟨"long", 1, 1⟩],
    market_params := defaultParams }

/-- A strategy holding a single long share bought at `997/998`, which is
exactly the 250th grid point (index 249) of the spot-1 grid. -/
def gridStockStrategy : OptionsStrategy :=
  { name := "GridStock", option_legs := [], stock_legs := [⟨"long", 997/998, 1⟩],
    market_params := defaultParams }

/-- The conjunction claimed by C5: grid shape plus extremal character of the
reported max profit / max loss. -/
def C5GridExtrema (s : OptionsStrategy) (S : ℝ) : Prop :=
  (linspace (S * 0.5) (S * 1.5) 500).length = 500 ∧
  (linspace (S * 0.5) (S * 1.5) 500).getD 0 0 = S * 0.5 ∧
  (linspace (S * 0.5) (S * 1.5) 500).getD 499 0 = S * 1.5 ∧
  (∀ i, i < 499 → (linspace (S * 0.5) (S * 1.5) 500).getD (i+1) 0
      - (linspace (S * 0.5) (S * 1.5) 500).getD i 0 = S / 499) ∧
  ((s.analyze S).max_profit_at_expiration
      ∈ (linspace (S * 0.5) (S * 1.5) 500).map (s.payoff_at_expiration)
    ∧ ∀ p ∈ (linspace (S * 0.5) (S * 1.5) 500).map (s.payoff_at_expiration),
        p ≤ (s.analyze S).max_profit_at_expiration) ∧
  ((s.analyze S).max_loss_at_expiration
      ∈ (linspace (S * 0.5) (S * 1.5) 500).map (s.payoff_at_expiration)
    ∧ ∀ p ∈ (linspace (S * 0.5) (S * 1.5) 500).map (s.payoff_at_expiration),
        (s.analyze S).max_loss_at_expiration ≤ p)

/-- The conjunction claimed by C10 for a pair index `j`: the strict
sign-change test fails there, `j` is not among the detected pair indices, and
the emitted break-evens are exactly the detected pairs' interpolants. -/
def C10NoEmission (s : OptionsStrategy) (S : ℝ) (j : ℕ) : Prop :=
  ¬(((linspace (S * 0.5) (S * 1.5) 500).map (s.payoff_at_expiration)).getD j 0
      * ((linspace (S * 0.5) (S * 1.5) 500).map
          (s.payoff_at_expiration)).getD (j+1) 0 < 0) ∧
  j ∉ signChangeIdx ((linspace (S * 0.5) (S * 1.5) 500).map
      (s.payoff_at_expiration)) ∧
  (s.analyze S).break_even_at_expiration
    = (signChangeIdx ((linspace (S * 0.5) (S * 1.5) 500).map
        (s.payoff_at_expiration))).map
        (interpBE (linspace (S * 0.5) (S * 1.5) 500)
          ((linspace (S * 0.5) (S * 1.5) 500).map (s.payoff_at_expiration)))

/-! ## Gaussian facts and other lemmas -/

lemma sqrt_two_pi_pos : 0 < Real.sqrt (2 * Real.pi) :=
  Real.sqrt_pos.2 (by positivity)

lemma one_le_sqrt_two_pi : 1 ≤ Real.sqrt (2 * Real.pi) := by
  rw [show (1 : ℝ) = Real.sqrt 1 by simp]
  exact Real.sqrt_le_sqrt (by nlinarith [Real.pi_gt_three])

lemma normPdf_pos (x : ℝ) : 0 < normPdf x := by
  unfold normPdf
  positivity

lemma normPdf_le_exp {x : ℝ} (hx : x ≤ -2) : normPdf x ≤ Real.exp x := by
  unfold normPdf
  have h1 : Real.exp (-(x ^ 2 / 2)) ≤ Real.exp x :=
    Real.exp_le_exp.2 (by nlinarith)
  have h2 : (Real.sqrt (2 * Real.pi))⁻¹ ≤ 1 := by
    rw [inv_le_one_iff₀]
    right
    exact one_le_sqrt_two_pi
  calc (Real.sqrt (2 * Real.pi))⁻¹ * Real.exp (-(x ^ 2 / 2))
      ≤ 1 * Real.exp (-(x ^ 2 / 2)) := by
        exact mul_le_mul_of_nonneg_right h2 (Real.exp_pos _).le
    _ = Real.exp (-(x ^ 2 / 2)) := one_mul _
    _ ≤ Real.exp x := h1

lemma integrable_normPdf : Integrable normPdf := by
  have h := (integrable_exp_neg_mul_sq (by norm_num : (0:ℝ) < 1/2)).const_mul
    ((Real.sqrt (2 * Real.pi))⁻¹)
  have he : (fun x : ℝ => (Real.sqrt (2 * Real.pi))⁻¹ * Real.exp (-(1/2 : ℝ) * x ^ 2))
      = normPdf := by
    funext x
    unfold normPdf
    ring_nf
  rwa [he] at h

lemma integrableOn_normPdf (s : Set ℝ) : IntegrableOn normPdf s :=
  integrable_normPdf.integrableOn

lemma integral_normPdf : ∫ x, normPdf x = 1 := by
  have h0 : ∫ x : ℝ, Real.exp (-(1/2 : ℝ) * x ^ 2) = Real.sqrt (Real.pi / (1/2)) :=
    integral_gaussian (1/2)
  have h2 : ∫ x, normPdf x
      = (Real.sqrt (2 * Real.pi))⁻¹ * ∫ x : ℝ, Real.exp (-(1/2 : ℝ) * x ^ 2) := by
    rw [← integral_mul_left]
    congr 1
    funext x
    unfold normPdf
    ring_nf
  rw [h2, h0, show Real.pi / (1/2) = 2 * Real.pi by ring]
  exact inv_mul_cancel₀ (ne_of_gt sqrt_two_pi_pos)

lemma normCdf_sub (a b : ℝ) : normCdf b - normCdf a = ∫ t in a..b, normPdf t :=
  intervalIntegral.integral_Iic_sub_Iic (integrableOn_normPdf _) (integrableOn_normPdf _)

lemma continuous_normPdf : Continuous normPdf := by
  unfold normPdf
  fun_prop

lemma hasDerivAt_normCdf (x : ℝ) : HasDerivAt normCdf (normPdf x) x := by
  have hrepr : normCdf = fun y => normCdf 0 + ∫ t in (0:ℝ)..y, normPdf t := by
    funext y
    rw [← normCdf_sub 0 y]
    ring
  have hd : HasDerivAt (fun y => ∫ t in (0:ℝ)..y, normPdf t) (normPdf x) x :=
    intervalIntegral.integral_hasDerivAt_right
      (integrable_normPdf.intervalIntegrable)
      (continuous_normPdf.stronglyMeasurable.stronglyMeasurableAtFilter)
      continuous_normPdf.continuousAt
  rw [hrepr]
  exact hd.const_add (normCdf 0)

lemma normPdf_neg (x : ℝ) : normPdf (-x) = normPdf x := by
  unfold normPdf
  ring_nf

lemma normCdf_neg_eq (x : ℝ) : normCdf (-x) = ∫ t in Ioi x, normPdf t := by
  have h := integral_comp_neg_Iic (-x) normPdf
  rw [neg_neg] at h
  rw [← h]
  unfold normCdf
  simp only [normPdf_neg]

lemma normCdf_add_neg (x : ℝ) : normCdf x + normCdf (-x) = 1 := by
  rw [normCdf_neg_eq]
  unfold normCdf
  rw [intervalIntegral.integral_Iic_add_Ioi (integrableOn_normPdf _) (integrableOn_normPdf _),
    integral_normPdf]

lemma normCdf_nonneg (x : ℝ) : 0 ≤ normCdf x :=
  setIntegral_nonneg measurableSet_Iic (fun t _ => (normPdf_pos t).le)

lemma normCdf_pos (x : ℝ) : 0 < normCdf x := by
  have h : normCdf x - normCdf (x - 1) = ∫ t in (x-1)..x, normPdf t := normCdf_sub _ _
  have hpos : 0 < ∫ t in (x-1)..x, normPdf t :=
    intervalIntegral.intervalIntegral_pos_of_pos
      (integrable_normPdf.intervalIntegrable) (fun t => normPdf_pos t) (by linarith)
  have h2 := normCdf_nonneg (x - 1)
  linarith

lemma normCdf_le_normPdf {x : ℝ} (hx : x ≤ -2) : normCdf x ≤ normPdf x := by
  have hmono : ∀ t ∈ Iic x, normPdf t ≤ normPdf x * Real.exp (t - x) := by
    intro t ht
    rw [mem_Iic] at ht
    unfold normPdf
    rw [mul_assoc, ← Real.exp_add]
    refine mul_le_mul_of_nonneg_left (Real.exp_le_exp.2 ?_) (by positivity)
    nlinarith [mul_nonneg (sub_nonneg.2 ht) (by linarith : (0:ℝ) ≤ -(t + x + 2))]
  have hint : IntegrableOn (fun t => normPdf x * Real.exp (t - x)) (Iic x) := by
    have hbase : IntegrableOn Real.exp (Iic x) := integrableOn_exp_Iic x
    have : IntegrableOn (fun t => (normPdf x * Real.exp (-x)) * Real.exp t) (Iic x) :=
      hbase.const_mul _
    refine this.congr_fun ?_ measurableSet_Iic
    intro t _
    simp only [Real.exp_sub, Real.exp_neg]
    ring
  have hle : normCdf x ≤ ∫ t in Iic x, normPdf x * Real.exp (t - x) :=
    setIntegral_mono_on (integrableOn_normPdf _) hint measurableSet_Iic hmono
  have hval : ∫ t in Iic x, normPdf x * Real.exp (t - x) = normPdf x := by
    have h1 : ∀ t : ℝ, normPdf x * Real.exp (t - x)
        = (normPdf x * Real.exp (-x)) * Real.exp t := by
      intro t
      rw [Real.exp_sub, Real.exp_neg]
      ring
    calc ∫ t in Iic x, normPdf x * Real.exp (t - x)
        = ∫ t in Iic x, (normPdf x * Real.exp (-x)) * Real.exp t := by
          simp only [h1]
      _ = (normPdf x * Real.exp (-x)) * ∫ t in Iic x, Real.exp t := by
          rw [integral_mul_left]
      _ = (normPdf x * Real.exp (-x)) * Real.exp x := by rw [integral_exp_Iic]
      _ = normPdf x := by
          rw [mul_assoc, ← Real.exp_add]
          simp
  rw [hval] at hle
  exact hle

lemma hasDerivAt_normPdf (x : ℝ) : HasDerivAt normPdf (-x * normPdf x) x := by
  have h1 : HasDerivAt (fun t : ℝ => -(t ^ 2 / 2)) (-x) x := by
    have h := ((hasDerivAt_pow 2 x).div_const 2).neg
    convert h using 1
    simp
  have h2 := (h1.exp).const_mul ((Real.sqrt (2 * Real.pi))⁻¹)
  convert h2 using 1
  unfold normPdf
  ring

lemma hasDerivAt_mills (x : ℝ) :
    HasDerivAt (fun t => normPdf t + t * normCdf t) (normCdf x) x := by
  have h := (hasDerivAt_normPdf x).add ((hasDerivAt_id x).mul (hasDerivAt_normCdf x))
  convert h using 1
  simp only [id_eq]
  ring

lemma tendsto_normPdf_atBot : Tendsto normPdf atBot (𝓝 0) := by
  refine tendsto_of_tendsto_of_tendsto_of_le_of_le' tendsto_const_nhds
    Real.tendsto_exp_atBot ?_ ?_
  · filter_upwards with y using (normPdf_pos y).le
  · filter_upwards [eventually_le_atBot (-2 : ℝ)] with y hy using normPdf_le_exp hy

lemma tendsto_exp_half_atBot : Tendsto (fun y : ℝ => Real.exp (y / 2)) atBot (𝓝 0) := by
  apply Real.tendsto_exp_atBot.comp
  exact Tendsto.atBot_div_const (by norm_num) tendsto_id

lemma tendsto_mul_normCdf_atBot : Tendsto (fun y => y * normCdf y) atBot (𝓝 0) := by
  have hub : ∀ y : ℝ, y ≤ -2 → -(2 * Real.exp (y / 2)) ≤ y * normCdf y := by
    intro y hy
    have h1 : normCdf y ≤ normPdf y := normCdf_le_normPdf hy
    have h2 : normPdf y ≤ Real.exp (-(y ^ 2 / 2)) := by
      unfold normPdf
      have h2a : (Real.sqrt (2 * Real.pi))⁻¹ ≤ 1 := by
        rw [inv_le_one_iff₀]
        right
        exact one_le_sqrt_two_pi
      nlinarith [Real.exp_pos (-(y ^ 2 / 2))]
    have h3 : -y ≤ 2 * Real.exp (-y / 2) := by
      have := Real.add_one_le_exp (-y / 2)
      nlinarith
    have h4 : (-y) * normCdf y ≤ (2 * Real.exp (-y / 2)) * Real.exp (-(y ^ 2 / 2)) := by
      have hc : 0 ≤ normCdf y := normCdf_nonneg y
      have hcy : normCdf y ≤ Real.exp (-(y ^ 2 / 2)) := h1.trans h2
      have hny : (0:ℝ) ≤ -y := by linarith
      exact mul_le_mul h3 hcy hc (by positivity)
    have h5 : (2 * Real.exp (-y / 2)) * Real.exp (-(y ^ 2 / 2)) ≤ 2 * Real.exp (y / 2) := by
      rw [mul_assoc, ← Real.exp_add]
      have : -y / 2 + -(y ^ 2 / 2) ≤ y / 2 := by nlinarith
      nlinarith [Real.exp_le_exp.2 this, Real.exp_pos (-y / 2 + -(y ^ 2 / 2))]
    nlinarith
  have hlb : ∀ y : ℝ, y ≤ -2 → y * normCdf y ≤ 0 := by
    intro y hy
    exact mul_nonpos_iff.2 (Or.inr ⟨by linarith, normCdf_nonneg y⟩)
  have hneg : Tendsto (fun y : ℝ => -(2 * Real.exp (y / 2))) atBot (𝓝 0) := by
    have := (tendsto_exp_half_atBot.const_mul (2 : ℝ)).neg
    simpa using this
  refine tendsto_of_tendsto_of_tendsto_of_le_of_le' hneg tendsto_const_nhds ?_ ?_
  · filter_upwards [eventually_le_atBot (-2 : ℝ)] with y hy using hub y hy
  · filter_upwards [eventually_le_atBot (-2 : ℝ)] with y hy using hlb y hy

/-- Mills-ratio style inequality: `φ(x) + x·Φ(x) ≥ 0` for the standard normal. -/
lemma mills_nonneg (x : ℝ) : 0 ≤ normPdf x + x * normCdf x := by
  have hmono : Monotone (fun t => normPdf t + t * normCdf t) :=
    monotone_of_hasDerivAt_nonneg hasDerivAt_mills (fun t => normCdf_nonneg t)
  have hlim : Tendsto (fun t => normPdf t + t * normCdf t) atBot (𝓝 0) := by
    have := tendsto_normPdf_atBot.add tendsto_mul_normCdf_atBot
    simpa using this
  exact le_of_tendsto hlim (eventually_atBot.2 ⟨x, fun y hy => hmono hy⟩)

/-- The function `x ↦ Φ(x)·exp(x²/2)` is monotone; this is the key fact behind
non-negativity of the Black-Scholes call and put values. -/
lemma normCdf_mul_exp_monotone :
    Monotone (fun x => normCdf x * Real.exp (x ^ 2 / 2)) := by
  have hd : ∀ x : ℝ, HasDerivAt (fun t => normCdf t * Real.exp (t ^ 2 / 2))
      (Real.exp (x ^ 2 / 2) * (normPdf x + x * normCdf x)) x := by
    intro x
    have hexp : HasDerivAt (fun t : ℝ => Real.exp (t ^ 2 / 2))
        (Real.exp (x ^ 2 / 2) * x) x := by
      have hpow : HasDerivAt (fun t : ℝ => t ^ 2 / 2) x x := by
        have h := (hasDerivAt_pow 2 x).div_const 2
        convert h using 1
        simp
      exact hpow.exp
    have h := (hasDerivAt_normCdf x).mul hexp
    convert h using 1
    ring
  refine monotone_of_hasDerivAt_nonneg hd (fun x => ?_)
  exact mul_nonneg (Real.exp_pos _).le (mills_nonneg x)

lemma normCdf_ratio_le {a b : ℝ} (hab : a ≤ b) :
    normCdf a * Real.exp (a ^ 2 / 2) ≤ normCdf b * Real.exp (b ^ 2 / 2) :=
  normCdf_mul_exp_monotone hab

/-! ## Helper lemmas about the list combinators -/

lemma foldl_max_init (l : List ℝ) (a : ℝ) : a ≤ l.foldl max a := by
  induction l generalizing a with
  | nil => simp
  | cons b t ih =>
    simp only [List.foldl_cons]
    exact (le_max_left a b).trans (ih (max a b))

lemma foldl_max_mem_le (l : List ℝ) (a : ℝ) : ∀ x ∈ l, x ≤ l.foldl max a := by
  induction l generalizing a with
  | nil => simp
  | cons b t ih =>
    intro x hx
    simp only [List.foldl_cons]
    rcases List.mem_cons.1 hx with h1 | h2
    · exact h1 ▸ (le_max_right a b).trans (foldl_max_init t (max a b))
    · exact ih (max a b) x h2

lemma foldl_max_mem (l : List ℝ) (a : ℝ) : l.foldl max a ∈ a :: l := by
  induction l generalizing a with
  | nil => simp
  | cons b t ih =>
    simp only [List.foldl_cons]
    rcases List.mem_cons.1 (ih (max a b)) with h1 | h2
    · rcases max_choice a b with hc | hc
      · rw [h1, hc]
        exact List.mem_cons_self _ _
      · rw [h1, hc]
        exact List.mem_cons_of_mem _ (List.mem_cons_self _ _)
    · exact List.mem_cons_of_mem _ (List.mem_cons_of_mem _ h2)

lemma foldl_min_init (l : List ℝ) (a : ℝ) : l.foldl min a ≤ a := by
  induction l generalizing a with
  | nil => simp
  | cons b t ih =>
    simp only [List.foldl_cons]
    exact (ih (min a b)).trans (min_le_left a b)

lemma foldl_min_mem_le (l : List ℝ) (a : ℝ) : ∀ x ∈ l, l.foldl min a ≤ x := by
  induction l generalizing a with
  | nil => simp
  | cons b t ih =>
    intro x hx
    simp only [List.foldl_cons]
    rcases List.mem_cons.1 hx with h1 | h2
    · exact h1 ▸ (foldl_min_init t (min a b)).trans (min_le_right a b)
    · exact ih (min a b) x h2

lemma foldl_min_mem (l : List ℝ) (a : ℝ) : l.foldl min a ∈ a :: l := by
  induction l generalizing a with
  | nil => simp
  | cons b t ih =>
    simp only [List.foldl_cons]
    rcases List.mem_cons.1 (ih (min a b)) with h1 | h2
    · rcases min_choice a b with hc | hc
      · rw [h1, hc]
        exact List.mem_cons_self _ _
      · rw [h1, hc]
        exact List.mem_cons_of_mem _ (List.mem_cons_self _ _)
    · exact List.mem_cons_of_mem _ (List.mem_cons_of_mem _ h2)

lemma listMax_mem {l : List ℝ} (h : l ≠ []) : listMax l ∈ l := by
  cases l with
  | nil => exact absurd rfl h
  | cons x xs => exact foldl_max_mem xs x

lemma le_listMax {l : List ℝ} {x : ℝ} (h : x ∈ l) : x ≤ listMax l := by
  cases l with
  | nil => simp at h
  | cons a xs =>
    rcases List.mem_cons.1 h with h1 | h2
    · exact h1 ▸ foldl_max_init xs a
    · exact foldl_max_mem_le xs a x h2

lemma listMin_mem {l : List ℝ} (h : l ≠ []) : listMin l ∈ l := by
  cases l with
  | nil => exact absurd rfl h
  | cons x xs => exact foldl_min_mem xs x

lemma listMin_le {l : List ℝ} {x : ℝ} (h : x ∈ l) : listMin l ≤ x := by
  cases l with
  | nil => simp at h
  | cons a xs =>
    rcases List.mem_cons.1 h with h1 | h2
    · exact h1 ▸ foldl_min_init xs a
    · exact foldl_min_mem_le xs a x h2

lemma linspace_length (a b : ℝ) (n : ℕ) : (linspace a b n).length = n := by
  simp [linspace]

lemma linspace_getD {a b : ℝ} {n i : ℕ} (h : i < n) :
    (linspace a b n).getD i 0 = a + (b - a) * i / (n - 1) := by
  unfold linspace
  rw [List.getD_eq_getElem?_getD, List.getElem?_map, List.getElem?_range h]
  simp

lemma map_linspace_getD {f : ℝ → ℝ} {a b : ℝ} {n i : ℕ} (h : i < n) :
    ((linspace a b n).map f).getD i 0 = f (a + (b - a) * i / (n - 1)) := by
  unfold linspace
  rw [List.getD_eq_getElem?_getD, List.getElem?_map, List.getElem?_map,
    List.getElem?_range h]
  simp

lemma foldl_ifAppend (g : ℕ → ℝ) (C : ℕ → Prop) [DecidablePred C] :
    ∀ (n : ℕ) (acc : List ℝ),
      (List.range n).foldl (fun acc' i => if C i then acc' ++ [g i] else acc') acc
        = acc ++ ((List.range n).filter (fun i => decide (C i))).map g := by
  intro n
  induction n with
  | zero => intro acc; simp
  | succ m ih =>
    intro acc
    rw [List.range_succ, List.foldl_append, List.filter_append, List.map_append, ih]
    by_cases h : C m
    · simp [h]
    · simp [h]

/-! ## Claims -/

/-- Claim C1: For every `S>0`, `K>0`, `r`, `q`: if `T ≤ 0` or `sigma ≤ 0`, then
`call_price` returns exactly `max (S-K) 0` and `put_price` returns exactly
`max (K-S) 0` (the European intrinsic values). -/
theorem claim_C1_degenerate_intrinsic (S K T r sigma q : ℝ)
    (hS : 0 < S) (hK : 0 < K) (h : T ≤ 0 ∨ sigma ≤ 0) :
    BlackScholes.call_price S K T r sigma q = max (S - K) 0 ∧
    BlackScholes.put_price S K T r sigma q = max (K - S) 0 := by
  unfold BlackScholes.call_price BlackScholes.put_price
  rw [if_pos h, if_pos h]
  exact ⟨rfl, rfl⟩

/-- Witness for C1 at `S=3, K=1, T=0, sigma=1`. -/
theorem claim_C1_witness :
    BlackScholes.call_price 3 1 0 0 1 0 = max (3 - 1) 0 ∧
    BlackScholes.put_price 3 1 0 0 1 0 = max (1 - 3) 0 :=
  claim_C1_degenerate_intrinsic 3 1 0 0 1 0 (by norm_num) (by norm_num)
    (Or.inl le_rfl)

/-- Claim C8: For every `S>0`, `K>0`, `r`, `sigma`, `q` and every option kind:
when `T ≤ 0`, `delta` returns `1.0` exactly when the option is a call with
`S > K`, and `0.0` in every other case — including every put, regardless of
moneyness. -/
theorem claim_C8_delta_expiry (S K T r sigma q : ℝ) (option_type : String)
    (hS : 0 < S) (hK : 0 < K) (hT : T ≤ 0) :
    (S > K ∧ option_type = "call" →
      BlackScholes.delta S K T r sigma option_type q = 1) ∧
    (¬(S > K ∧ option_type = "call") →
      BlackScholes.delta S K T r sigma option_type q = 0) := by
  unfold BlackScholes.delta
  rw [if_pos hT]
  constructor
  · intro h
    rw [if_pos h]
  · intro h
    rw [if_neg h]

/-- Witness for C8: a deep in-the-money put at expiry has delta `0`. -/
theorem claim_C8_witness : BlackScholes.delta 3 1 0 0 1 "put" 0 = 0 :=
  (claim_C8_delta_expiry 3 1 0 0 1 0 "put" (by norm_num) (by norm_num)
    le_rfl).2 (by simp)

/-- Claim C3, counterexample: `add_option_leg` does append a leg with strike
`-1`, and `add_stock_leg` does append a leg with price `-5`: no validation or
rejection happens. -/
theorem claim_C3_counterexample :
    (emptyStrategy.add_option_leg "call" "long" (-1) 0).option_legs
        = [{ option_type := "call", position := "long", strike := -1,
             premium := 0 }] ∧
    (emptyStrategy.add_stock_leg "long" (-5) 100).stock_legs
        = [{ position := "long", price := -5, quantity := 100 }] :=
  ⟨rfl, rfl⟩

/-- Claim C3, amended: `add_option_leg` and `add_stock_leg` append the new leg
unconditionally — any strike, price or volatility value (positive or not) is
accepted and stored, and `MarketParams` likewise stores whatever field values
it is given; no input is ever rejected. -/
theorem claim_C3_amended (s : OptionsStrategy) (option_type position : String)
    (strike premium price : ℝ) (quantity : ℤ) (r v d : ℝ) (days : ℤ) :
    (s.add_option_leg option_type position strike premium).option_legs
        = s.option_legs ++ [⟨option_type, position, strike, premium⟩] ∧
    (s.add_stock_leg position price quantity).stock_legs
        = s.stock_legs ++ [⟨position, price, quantity⟩] ∧
    (MarketParams.mk r v d days).volatility = v ∧
    (MarketParams.mk r v d days).risk_free_rate = r :=
  ⟨rfl, rfl, rfl, rfl⟩

/-- A leg whose `option_type` is not `"call"` is dispatched to the put branch
of `delta`. -/
lemma delta_ne_call {option_type : String} (h : option_type ≠ "call")
    (S K T r sigma q : ℝ) :
    BlackScholes.delta S K T r sigma option_type q
      = BlackScholes.delta S K T r sigma "put" q := by
  unfold BlackScholes.delta
  have h2 : ¬("put" = "call") := by decide
  by_cases hT : T ≤ 0
  · rw [if_pos hT, if_pos hT,
      if_neg (fun hc => h hc.2), if_neg (fun hc => h2 hc.2)]
  · rw [if_neg hT, if_neg hT, if_neg h, if_neg h2]

lemma theta_ne_call {option_type : String} (h : option_type ≠ "call")
    (S K T r sigma q : ℝ) :
    BlackScholes.theta S K T r sigma option_type q
      = BlackScholes.theta S K T r sigma "put" q := by
  unfold BlackScholes.theta
  have h2 : ¬("put" = "call") := by decide
  by_cases hT : T ≤ 0
  · rw [if_pos hT, if_pos hT]
  · rw [if_neg hT, if_neg hT]
    simp only [if_neg h, if_neg h2]

lemma rho_ne_call {option_type : String} (h : option_type ≠ "call")
    (S K T r sigma q : ℝ) :
    BlackScholes.rho S K T r sigma option_type q
      = BlackScholes.rho S K T r sigma "put" q := by
  unfold BlackScholes.rho
  have h2 : ¬("put" = "call") := by decide
  by_cases hT : T ≤ 0
  · rw [if_pos hT, if_pos hT]
  · rw [if_neg hT, if_neg hT, if_neg h, if_neg h2]

/-- Claim C4, counterexample: An option leg tagged `"banana"`/`"flat"` is not
rejected by `payoff_at_expiration`: it is silently priced as a short put
(value `-100` at `S_T = 1` for strike 2, premium 0), identical to the leg
tagged `"put"`/`"short"`. -/
theorem claim_C4_counterexample :
    OptionsStrategy.payoff_at_expiration bananaStrategy 1 = -100 ∧
    OptionsStrategy.payoff_at_expiration bananaStrategy 1
      = OptionsStrategy.payoff_at_expiration putShortStrategy 1 := by
  have h1 : OptionsStrategy.payoff_at_expiration bananaStrategy 1 = -100 := by
    unfold OptionsStrategy.payoff_at_expiration bananaStrategy
    norm_num
    rw [if_neg (by decide : ¬("flat" = "long")),
      if_neg (by decide : ¬("banana" = "call"))]
  have h2 : OptionsStrategy.payoff_at_expiration putShortStrategy 1 = -100 := by
    unfold OptionsStrategy.payoff_at_expiration putShortStrategy
    norm_num
    rw [if_neg (by decide : ¬("short" = "long")),
      if_neg (by decide : ¬("put" = "call"))]
  exact ⟨h1, h1.trans h2.symm⟩

/-- Claim C4, amended: The pricing and aggregation operations signal no error on
unrecognized tags: any `option_type` other than `"call"` is silently treated
as a put, and any `position` other than `"long"` is silently treated as
short, in `payoff_at_expiration`, `current_pnl`, `greeks` and
`BlackScholes.delta`. -/
theorem claim_C4_amended (option_type position : String)
    (hk : option_type ≠ "call") (hp : position ≠ "long")
    (s : OptionsStrategy) (strike premium S_T S K T r sigma q : ℝ) :
    (s.add_option_leg option_type position strike premium).payoff_at_expiration S_T
      = (s.add_option_leg "put" "short" strike premium).payoff_at_expiration S_T ∧
    (s.add_option_leg option_type position strike premium).current_pnl S
      = (s.add_option_leg "put" "short" strike premium).current_pnl S ∧
    (s.add_option_leg option_type position strike premium).greeks S
      = (s.add_option_leg "put" "short" strike premium).greeks S ∧
    BlackScholes.delta S K T r sigma option_type q
      = BlackScholes.delta S K T r sigma "put" q := by
  have h2 : ¬("put" = "call") := by decide
  have h3 : ¬("short" = "long") := by decide
  refine ⟨?_, ?_, ?_, delta_ne_call hk S K T r sigma q⟩
  · unfold OptionsStrategy.payoff_at_expiration OptionsStrategy.add_option_leg
    simp only [List.foldl_append, List.foldl_cons, List.foldl_nil]
    rw [if_neg hk, if_neg h2, if_neg hp, if_neg h3]
  · unfold OptionsStrategy.current_pnl OptionsStrategy.add_option_leg
    simp only [List.foldl_append, List.foldl_cons, List.foldl_nil]
    rw [if_neg hk, if_neg h2, if_neg hp, if_neg h3]
  · unfold OptionsStrategy.greeks OptionsStrategy.add_option_leg
    simp only [List.foldl_append, List.foldl_cons, List.foldl_nil]
    unfold OptionsStrategy.optionGreeksStep
    rw [if_neg hp, if_neg h3, delta_ne_call hk, theta_ne_call hk, rho_ne_call hk]

/-! Fold-to-sum lemmas for the Greeks aggregation. -/

lemma stockGreeksStep_foldl_delta (legs : List StockLeg) (g : Greeks) :
    (legs.foldl OptionsStrategy.stockGreeksStep g).delta
      = g.delta + (legs.map (fun leg =>
          (leg.quantity : ℝ) * (if leg.position = "long" then 1 else -1))).sum := by
  induction legs generalizing g with
  | nil => simp
  | cons leg t ih =>
    simp only [List.foldl_cons, List.map_cons, List.sum_cons]
    rw [ih]
    unfold OptionsStrategy.stockGreeksStep
    dsimp only
    ring

lemma stockGreeksStep_foldl_gamma (legs : List StockLeg) (g : Greeks) :
    (legs.foldl OptionsStrategy.stockGreeksStep g).gamma = g.gamma := by
  induction legs generalizing g with
  | nil => simp
  | cons leg t ih =>
    simp only [List.foldl_cons]
    rw [ih]
    rfl

lemma stockGreeksStep_foldl_theta (legs : List StockLeg) (g : Greeks) :
    (legs.foldl OptionsStrategy.stockGreeksStep g).theta = g.theta := by
  induction legs generalizing g with
  | nil => simp
  | cons leg t ih =>
    simp only [List.foldl_cons]
    rw [ih]
    rfl

lemma stockGreeksStep_foldl_vega (legs : List StockLeg) (g : Greeks) :
    (legs.foldl OptionsStrategy.stockGreeksStep g).vega = g.vega := by
  induction legs generalizing g with
  | nil => simp
  | cons leg t ih =>
    simp only [List.foldl_cons]
    rw [ih]
    rfl

lemma stockGreeksStep_foldl_rho (legs : List StockLeg) (g : Greeks) :
    (legs.foldl OptionsStrategy.stockGreeksStep g).rho = g.rho := by
  induction legs generalizing g with
  | nil => simp
  | cons leg t ih =>
    simp only [List.foldl_cons]
    rw [ih]
    rfl

lemma optionGreeksStep_foldl_delta (S T : ℝ) (mp : MarketParams)
    (legs : List OptionLeg) (g : Greeks) :
    (legs.foldl (OptionsStrategy.optionGreeksStep S T mp) g).delta
      = g.delta + (legs.map (fun leg =>
          (if leg.position = "long" then (1:ℝ) else -1)
            * BlackScholes.delta S leg.strike T mp.risk_free_rate mp.volatility
                leg.option_type mp.dividend_yield * 100)).sum := by
  induction legs generalizing g with
  | nil => simp
  | cons leg t ih =>
    simp only [List.foldl_cons, List.map_cons, List.sum_cons]
    rw [ih]
    unfold OptionsStrategy.optionGreeksStep
    dsimp only
    ring

lemma optionGreeksStep_foldl_gamma (S T : ℝ) (mp : MarketParams)
    (legs : List OptionLeg) (g : Greeks) :
    (legs.foldl (OptionsStrategy.optionGreeksStep S T mp) g).gamma
      = g.gamma + (legs.map (fun leg =>
          (if leg.position = "long" then (1:ℝ) else -1)
            * BlackScholes.gamma S leg.strike T mp.risk_free_rate mp.volatility
                mp.dividend_yield * 100)).sum := by
  induction legs generalizing g with
  | nil => simp
  | cons leg t ih =>
    simp only [List.foldl_cons, List.map_cons, List.sum_cons]
    rw [ih]
    unfold OptionsStrategy.optionGreeksStep
    dsimp only
    ring

lemma optionGreeksStep_foldl_theta (S T : ℝ) (mp : MarketParams)
    (legs : List OptionLeg) (g : Greeks) :
    (legs.foldl (OptionsStrategy.optionGreeksStep S T mp) g).theta
      = g.theta + (legs.map (fun leg =>
          (if leg.position = "long" then (1:ℝ) else -1)
            * BlackScholes.theta S leg.strike T mp.risk_free_rate mp.volatility
                leg.option_type mp.dividend_yield * 100)).sum := by
  induction legs generalizing g with
  | nil => simp
  | cons leg t ih =>
    simp only [List.foldl_cons, List.map_cons, List.sum_cons]
    rw [ih]
    unfold OptionsStrategy.optionGreeksStep
    dsimp only
    ring

lemma optionGreeksStep_foldl_vega (S T : ℝ) (mp : MarketParams)
    (legs : List OptionLeg) (g : Greeks) :
    (legs.foldl (OptionsStrategy.optionGreeksStep S T mp) g).vega
      = g.vega + (legs.map (fun leg =>
          (if leg.position = "long" then (1:ℝ) else -1)
            * BlackScholes.vega S leg.strike T mp.risk_free_rate mp.volatility
                mp.dividend_yield * 100)).sum := by
  induction legs generalizing g with
  | nil => simp
  | cons leg t ih =>
    simp only [List.foldl_cons, List.map_cons, List.sum_cons]
    rw [ih]
    unfold OptionsStrategy.optionGreeksStep
    dsimp only
    ring

lemma optionGreeksStep_foldl_rho (S T : ℝ) (mp : MarketParams)
    (legs : List OptionLeg) (g : Greeks) :
    (legs.foldl (OptionsStrategy.optionGreeksStep S T mp) g).rho
      = g.rho + (legs.map (fun leg =>
          (if leg.position = "long" then (1:ℝ) else -1)
            * BlackScholes.rho S leg.strike T mp.risk_free_rate mp.volatility
                leg.option_type mp.dividend_yield * 100)).sum := by
  induction legs generalizing g with
  | nil => simp
  | cons leg t ih =>
    simp only [List.foldl_cons, List.map_cons, List.sum_cons]
    rw [ih]
    unfold OptionsStrategy.optionGreeksStep
    dsimp only
    ring

lemma greeks_eq_foldl (s : OptionsStrategy) (S : ℝ) :
    s.greeks S = s.option_legs.foldl
        (OptionsStrategy.optionGreeksStep S
          ((s.market_params.days_to_expiration : ℝ) / 365) s.market_params)
        (s.stock_legs.foldl OptionsStrategy.stockGreeksStep ⟨0, 0, 0, 0, 0⟩) := rfl

/-- Witness for C4 (amended) at tags `"banana"`/`"flat"` on `bananaStrategy`. -/
theorem claim_C4_amended_witness :
    (emptyStrategy.add_option_leg "banana" "flat" 2 0).payoff_at_expiration 1
      = (emptyStrategy.add_option_leg "put" "short" 2 0).payoff_at_expiration 1 ∧
    (emptyStrategy.add_option_leg "banana" "flat" 2 0).current_pnl 1
      = (emptyStrategy.add_option_leg "put" "short" 2 0).current_pnl 1 ∧
    (emptyStrategy.add_option_leg "banana" "flat" 2 0).greeks 1
      = (emptyStrategy.add_option_leg "put" "short" 2 0).greeks 1 ∧
    BlackScholes.delta 1 2 1 0 1 "banana" 0
      = BlackScholes.delta 1 2 1 0 1 "put" 0 :=
  claim_C4_amended "banana" "flat" (by decide) (by decide)
    emptyStrategy 2 0 1 1 2 1 0 1 0

/-- Claim C7: The aggregated Greeks are: for every component, the sum over option
legs of the per-leg Greek times `+1`/`-1` (long/short) times `100`; delta
additionally receives the sum over stock legs of the signed quantity; the stock
legs contribute exactly `0` to gamma, theta, vega and rho. -/
theorem claim_C7_greeks_aggregation (s : OptionsStrategy) (S : ℝ) :
    (s.greeks S).delta
      = (s.stock_legs.map (fun leg =>
          (leg.quantity : ℝ) * (if leg.position = "long" then 1 else -1))).sum
        + (s.option_legs.map (fun leg =>
          (if leg.position = "long" then (1:ℝ) else -1)
            * BlackScholes.delta S leg.strike
                ((s.market_params.days_to_expiration : ℝ) / 365)
                s.market_params.risk_free_rate s.market_params.volatility
                leg.option_type s.market_params.dividend_yield * 100)).sum ∧
    (s.greeks S).gamma
      = (s.option_legs.map (fun leg =>
          (if leg.position = "long" then (1:ℝ) else -1)
            * BlackScholes.gamma S leg.strike
                ((s.market_params.days_to_expiration : ℝ) / 365)
                s.market_params.risk_free_rate s.market_params.volatility
                s.market_params.dividend_yield * 100)).sum ∧
    (s.greeks S).theta
      = (s.option_legs.map (fun leg =>
          (if leg.position = "long" then (1:ℝ) else -1)
            * BlackScholes.theta S leg.strike
                ((s.market_params.days_to_expiration : ℝ) / 365)
                s.market_params.risk_free_rate s.market_params.volatility
                leg.option_type s.market_params.dividend_yield * 100)).sum ∧
    (s.greeks S).vega
      = (s.option_legs.map (fun leg =>
          (if leg.position = "long" then (1:ℝ) else -1)
            * BlackScholes.vega S leg.strike
                ((s.market_params.days_to_expiration : ℝ) / 365)
                s.market_params.risk_free_rate s.market_params.volatility
                s.market_params.dividend_yield * 100)).sum ∧
    (s.greeks S).rho
      = (s.option_legs.map (fun leg =>
          (if leg.position = "long" then (1:ℝ) else -1)
            * BlackScholes.rho S leg.strike
                ((s.market_params.days_to_expiration : ℝ) / 365)
                s.market_params.risk_free_rate s.market_params.volatility
                leg.option_type s.market_params.dividend_yield * 100)).sum := by
  rw [greeks_eq_foldl]
  refine ⟨?_, ?_, ?_, ?_, ?_⟩
  · rw [optionGreeksStep_foldl_delta, stockGreeksStep_foldl_delta]
    dsimp only
    ring
  · rw [optionGreeksStep_foldl_gamma, stockGreeksStep_foldl_gamma]
    dsimp only
    ring
  · rw [optionGreeksStep_foldl_theta, stockGreeksStep_foldl_theta]
    dsimp only
    ring
  · rw [optionGreeksStep_foldl_vega, stockGreeksStep_foldl_vega]
    dsimp only
    ring
  · rw [optionGreeksStep_foldl_rho, stockGreeksStep_foldl_rho]
    dsimp only
    ring

/-! Unfolding lemmas for the fields of `analyze`. -/

set_option maxRecDepth 4000 in
lemma analyze_max_profit (s : OptionsStrategy) (S : ℝ) :
    (s.analyze S).max_profit_at_expiration
      = listMax ((linspace (S * 0.5) (S * 1.5) 500).map (s.payoff_at_expiration)) := rfl

set_option maxRecDepth 4000 in
lemma analyze_max_loss (s : OptionsStrategy) (S : ℝ) :
    (s.analyze S).max_loss_at_expiration
      = listMin ((linspace (S * 0.5) (S * 1.5) 500).map (s.payoff_at_expiration)) := rfl

lemma payoffs_length (s : OptionsStrategy) (S : ℝ) :
    ((linspace (S * 0.5) (S * 1.5) 500).map (s.payoff_at_expiration)).length = 500 := by
  rw [List.length_map, linspace_length]

lemma payoffs_ne_nil (s : OptionsStrategy) (S : ℝ) :
    ((linspace (S * 0.5) (S * 1.5) 500).map (s.payoff_at_expiration)) ≠ [] := by
  intro h
  have := payoffs_length s S
  rw [h] at this
  simp at this

/-- Claim C5: `analyze` evaluates `payoff_at_expiration` on a grid of exactly 500
equally spaced prices from `0.5*S` to `1.5*S`, and the reported max profit and
max loss are the maximum and minimum of the payoffs over that grid. -/
theorem claim_C5_grid_extrema (s : OptionsStrategy) (S : ℝ) (hS : 0 < S) :
    C5GridExtrema s S := by
  have hspace : ∀ i, i < 499 → (linspace (S * 0.5) (S * 1.5) 500).getD (i+1) 0
      - (linspace (S * 0.5) (S * 1.5) 500).getD i 0 = S / 499 := by
    intro i hi
    rw [linspace_getD (by omega : i + 1 < 500), linspace_getD (by omega : i < 500)]
    push_cast
    ring
  refine ⟨linspace_length _ _ _, ?_, ?_, hspace, ?_, ?_⟩
  · rw [linspace_getD (by norm_num : (0:ℕ) < 500)]
    norm_num
  · rw [linspace_getD (by norm_num : (499:ℕ) < 500)]
    norm_num
  · rw [analyze_max_profit]
    exact ⟨listMax_mem (payoffs_ne_nil s S), fun p hp => le_listMax hp⟩
  · rw [analyze_max_loss]
    exact ⟨listMin_mem (payoffs_ne_nil s S), fun p hp => listMin_le hp⟩

/-- Witness for C5 on the empty strategy at spot `1`. -/
theorem claim_C5_witness : C5GridExtrema emptyStrategy 1 :=
  claim_C5_grid_extrema emptyStrategy 1 one_pos

/-! Break-even detection. -/

lemma linspace500_getD (S : ℝ) {j : ℕ} (hj : j < 500) :
    (linspace (S * 0.5) (S * 1.5) 500).getD j 0 = S * 0.5 + S * j / 499 := by
  rw [linspace_getD hj]
  push_cast
  ring

set_option maxRecDepth 4000 in
lemma analyze_break_evens_foldl (s : OptionsStrategy) (S : ℝ) :
    (s.analyze S).break_even_at_expiration
      = (List.range
            (((linspace (S * 0.5) (S * 1.5) 500).map (s.payoff_at_expiration)).length
              - 1)).foldl
          (fun acc i =>
            if ((linspace (S * 0.5) (S * 1.5) 500).map (s.payoff_at_expiration)).getD i 0
                * ((linspace (S * 0.5) (S * 1.5) 500).map
                    (s.payoff_at_expiration)).getD (i+1) 0 < 0
            then acc ++ [interpBE (linspace (S * 0.5) (S * 1.5) 500)
                ((linspace (S * 0.5) (S * 1.5) 500).map (s.payoff_at_expiration)) i]
            else acc) [] := rfl

lemma analyze_break_evens_eq (s : OptionsStrategy) (S : ℝ) :
    (s.analyze S).break_even_at_expiration
      = (signChangeIdx
            ((linspace (S * 0.5) (S * 1.5) 500).map (s.payoff_at_expiration))).map
          (interpBE (linspace (S * 0.5) (S * 1.5) 500)
            ((linspace (S * 0.5) (S * 1.5) 500).map (s.payoff_at_expiration))) := by
  rw [analyze_break_evens_foldl, foldl_ifAppend]
  rw [List.nil_append]
  rfl

/-- Claim C6: `analyze` reports exactly one break-even for each consecutive grid
pair with a strict sign change in payoff, each computed by linear
interpolation (`interpBE`), and they are returned in grid order (the filtered
index list is in increasing order of `i`). -/
theorem claim_C6_break_even_detection (s : OptionsStrategy) (S : ℝ) :
    (s.analyze S).break_even_at_expiration
      = (signChangeIdx
            ((linspace (S * 0.5) (S * 1.5) 500).map (s.payoff_at_expiration))).map
          (interpBE (linspace (S * 0.5) (S * 1.5) 500)
            ((linspace (S * 0.5) (S * 1.5) 500).map (s.payoff_at_expiration))) :=
  analyze_break_evens_eq s S

/-- If the payoffs at two consecutive grid points have strictly opposite signs,
the linearly interpolated zero-crossing lies strictly between the two grid
points. -/
lemma interp_strictly_between {g0 g1 p0 p1 : ℝ} (hg : g0 < g1) (hp : p0 * p1 < 0) :
    g0 < g0 - p0 * (g1 - g0) / (p1 - p0) ∧ g0 - p0 * (g1 - g0) / (p1 - p0) < g1 := by
  have hgpos : 0 < g1 - g0 := by linarith
  rcases mul_neg_iff.1 hp with ⟨hp0, hp1⟩ | ⟨hp0, hp1⟩
  · have hd : p1 - p0 < 0 := by linarith
    have hdne : p1 - p0 ≠ 0 := ne_of_lt hd
    have h1 : p0 * (g1 - g0) / (p1 - p0) < 0 :=
      div_neg_of_pos_of_neg (by nlinarith) hd
    have key : 0 < (g1 - g0) * p1 / (p1 - p0) :=
      div_pos_of_neg_of_neg (by nlinarith) hd
    have hid : g0 - p0 * (g1 - g0) / (p1 - p0)
        = g1 - (g1 - g0) * p1 / (p1 - p0) := by
      field_simp
      ring
    constructor
    · linarith
    · rw [hid]
      linarith
  · have hd : 0 < p1 - p0 := by linarith
    have hdne : p1 - p0 ≠ 0 := ne_of_gt hd
    have h1 : p0 * (g1 - g0) / (p1 - p0) < 0 :=
      div_neg_of_neg_of_pos (by nlinarith) hd
    have key : 0 < (g1 - g0) * p1 / (p1 - p0) := div_pos (by nlinarith) hd
    have hid : g0 - p0 * (g1 - g0) / (p1 - p0)
        = g1 - (g1 - g0) * p1 / (p1 - p0) := by
      field_simp
      ring
    constructor
    · linarith
    · rw [hid]
      linarith

/-- Claim C9: Every break-even reported by `analyze` lies strictly between
`0.5*S` and `1.5*S`: the interpolated crossing is strictly inside the grid
pair that produced it, because the two payoffs have strictly opposite signs. -/
theorem claim_C9_break_evens_in_range (s : OptionsStrategy) (S : ℝ) (hS : 0 < S)
    (be : ℝ) (hbe : be ∈ (s.analyze S).break_even_at_expiration) :
    S * 0.5 < be ∧ be < S * 1.5 := by
  rw [analyze_break_evens_eq] at hbe
  obtain ⟨i, hi, hbeq⟩ := List.mem_map.1 hbe
  unfold signChangeIdx at hi
  rw [List.mem_filter, List.mem_range, payoffs_length] at hi
  obtain ⟨hir, hcond⟩ := hi
  have hir' : i < 499 := by omega
  have hcond' :
      ((linspace (S * 0.5) (S * 1.5) 500).map (s.payoff_at_expiration)).getD i 0
        * ((linspace (S * 0.5) (S * 1.5) 500).map
            (s.payoff_at_expiration)).getD (i+1) 0 < 0 :=
    of_decide_eq_true hcond
  have hg0 := linspace500_getD S (show i < 500 by omega)
  have hg1 := linspace500_getD S (show i + 1 < 500 by omega)
  have h499 : (0:ℝ) < 499 := by norm_num
  have hglt : (linspace (S * 0.5) (S * 1.5) 500).getD i 0
      < (linspace (S * 0.5) (S * 1.5) 500).getD (i+1) 0 := by
    have hdiff : (linspace (S * 0.5) (S * 1.5) 500).getD (i+1) 0
        - (linspace (S * 0.5) (S * 1.5) 500).getD i 0 = S / 499 := by
      rw [hg0, hg1]
      push_cast
      ring
    have := div_pos hS h499
    linarith
  have hlb : S * 0.5 ≤ (linspace (S * 0.5) (S * 1.5) 500).getD i 0 := by
    rw [hg0]
    have : (0:ℝ) ≤ S * i / 499 :=
      div_nonneg (mul_nonneg hS.le (Nat.cast_nonneg i)) h499.le
    linarith
  have hub : (linspace (S * 0.5) (S * 1.5) 500).getD (i+1) 0 ≤ S * 1.5 := by
    rw [hg1]
    push_cast
    have hile : (i:ℝ) + 1 ≤ 499 := by
      have : (i:ℝ) ≤ 498 := by exact_mod_cast (show i ≤ 498 by omega)
      linarith
    have h1 : S * ((i:ℝ) + 1) / 499 ≤ S := by
      rw [div_le_iff₀ h499]
      nlinarith
    linarith
  have hbetween := interp_strictly_between hglt hcond'
  rw [← hbeq]
  unfold interpBE
  constructor
  · calc S * 0.5 ≤ (linspace (S * 0.5) (S * 1.5) 500).getD i 0 := hlb
      _ < _ := hbetween.1
  · calc _ < (linspace (S * 0.5) (S * 1.5) 500).getD (i+1) 0 := hbetween.2
      _ ≤ S * 1.5 := hub

lemma stockStrategy_payoff (x : ℝ) :
    stockStrategy.payoff_at_expiration x = x - 1 := by
  unfold OptionsStrategy.payoff_at_expiration stockStrategy
  simp

lemma gridStockStrategy_payoff (x : ℝ) :
    gridStockStrategy.payoff_at_expiration x = x - 997/998 := by
  unfold OptionsStrategy.payoff_at_expiration gridStockStrategy
  simp

lemma stock_ps_getD {j : ℕ} (hj : j < 500) :
    ((linspace ((1:ℝ) * 0.5) (1 * 1.5) 500).map
        (stockStrategy.payoff_at_expiration)).getD j 0 = (j:ℝ)/499 - 1/2 := by
  rw [map_linspace_getD hj, stockStrategy_payoff]
  push_cast
  ring

lemma gridStock_ps_getD {j : ℕ} (hj : j < 500) :
    ((linspace ((1:ℝ) * 0.5) (1 * 1.5) 500).map
        (gridStockStrategy.payoff_at_expiration)).getD j 0
      = (j:ℝ)/499 - 249/499 := by
  rw [map_linspace_getD hj, gridStockStrategy_payoff]
  push_cast
  ring

set_option maxRecDepth 100000 in
lemma stock_signChange :
    signChangeIdx ((linspace ((1:ℝ) * 0.5) (1 * 1.5) 500).map
        (stockStrategy.payoff_at_expiration)) = [249] := by
  unfold signChangeIdx
  rw [payoffs_length]
  have hcongr : ∀ j ∈ List.range (500 - 1),
      (decide (((linspace ((1:ℝ) * 0.5) (1 * 1.5) 500).map
            (stockStrategy.payoff_at_expiration)).getD j 0
          * ((linspace ((1:ℝ) * 0.5) (1 * 1.5) 500).map
              (stockStrategy.payoff_at_expiration)).getD (j+1) 0 < 0))
        = decide (j = 249) := by
    intro j hj
    rw [List.mem_range] at hj
    rw [decide_eq_decide]
    rw [stock_ps_getD (by omega), stock_ps_getD (by omega)]
    push_cast
    constructor
    · intro h
      by_contra hne
      rcases lt_or_gt_of_ne hne with hlt | hgt
      · have hjle : (j:ℝ) ≤ 248 := by exact_mod_cast (show j ≤ 248 by omega)
        nlinarith [mul_pos (show (0:ℝ) < 499 - 2 * (j:ℝ) by linarith)
          (show (0:ℝ) < 497 - 2 * (j:ℝ) by linarith)]
      · have hjge : (250:ℝ) ≤ (j:ℝ) := by exact_mod_cast (show 250 ≤ j by omega)
        nlinarith [mul_pos (show (0:ℝ) < 2 * (j:ℝ) - 499 by linarith)
          (show (0:ℝ) < 2 * (j:ℝ) - 497 by linarith)]
    · intro h
      subst h
      norm_num
  rw [List.filter_congr hcongr]
  decide

lemma stock_break_evens :
    (stockStrategy.analyze 1).break_even_at_expiration = [(1:ℝ)] := by
  rw [analyze_break_evens_eq, stock_signChange, List.map_singleton]
  have e1 := linspace500_getD 1 (show (249:ℕ) < 500 by norm_num)
  have e2 := linspace500_getD 1 (show (250:ℕ) < 500 by norm_num)
  have e3 := stock_ps_getD (show (249:ℕ) < 500 by norm_num)
  have e4 := stock_ps_getD (show (250:ℕ) < 500 by norm_num)
  unfold interpBE
  rw [show (249:ℕ) + 1 = 250 from rfl, e1, e2, e3, e4]
  norm_num

/-- Witness for C9: the long-stock strategy at spot 1 reports break-even `1`,
which lies strictly inside `(0.5, 1.5)`. -/
theorem claim_C9_witness : (1:ℝ) * 0.5 < 1 ∧ (1:ℝ) < 1 * 1.5 :=
  claim_C9_break_evens_in_range stockStrategy 1 one_pos 1
    (by rw [stock_break_evens]; exact List.mem_singleton_self 1)

/-- Claim C10: If the payoff at grid point `i` is exactly zero, then neither
adjacent grid pair (`(i-1, i)` or `(i, i+1)`, i.e. any pair index `j` with
`j + 1 = i` or `j = i`) passes the strict sign-change test
`payoff_j * payoff_{j+1} < 0`, so no break-even is emitted from a pair
containing that point. -/
theorem claim_C10_zero_grid_point (s : OptionsStrategy) (S : ℝ) (i j : ℕ)
    (hzero : ((linspace (S * 0.5) (S * 1.5) 500).map
        (s.payoff_at_expiration)).getD i 0 = 0)
    (hj : j + 1 = i ∨ j = i) :
    C10NoEmission s S j := by
  have hnot : ¬(((linspace (S * 0.5) (S * 1.5) 500).map
      (s.payoff_at_expiration)).getD j 0
        * ((linspace (S * 0.5) (S * 1.5) 500).map
            (s.payoff_at_expiration)).getD (j+1) 0 < 0) := by
    rcases hj with h | h
    · subst h
      rw [hzero, mul_zero]
      exact lt_irrefl 0
    · subst h
      rw [hzero, zero_mul]
      exact lt_irrefl 0
  refine ⟨hnot, ?_, analyze_break_evens_eq s S⟩
  intro hmem
  unfold signChangeIdx at hmem
  rw [List.mem_filter] at hmem
  exact hnot (of_decide_eq_true hmem.2)

/-- Witness for C10: the `gridStockStrategy` payoff vanishes exactly at grid
index 249 of the spot-1 grid, and the adjacent pair `j = 249` emits nothing. -/
theorem claim_C10_witness : C10NoEmission gridStockStrategy 1 249 :=
  claim_C10_zero_grid_point gridStockStrategy 1 249 249
    (by rw [gridStock_ps_getD (by norm_num)]; norm_num) (Or.inr rfl)

/-! ## Put-call parity and non-negativity of the Black-Scholes values -/

lemma bs_d_sq_diff (S K r q : ℝ) {T sigma : ℝ} (hT : 0 < T) (hs : 0 < sigma) :
    BlackScholes.bs_d1 S K T r sigma q ^ 2 - BlackScholes.bs_d2 S K T r sigma q ^ 2
      = 2 * (Real.log (S / K) + (r - q) * T) := by
  have hstpos : 0 < sigma * Real.sqrt T := mul_pos hs (Real.sqrt_pos.2 hT)
  have key : BlackScholes.bs_d1 S K T r sigma q * (sigma * Real.sqrt T)
      = Real.log (S / K) + (r - q + 0.5 * sigma ^ 2) * T := by
    unfold BlackScholes.bs_d1
    field_simp
  have hsq : Real.sqrt T ^ 2 = T := Real.sq_sqrt hT.le
  have expand : BlackScholes.bs_d1 S K T r sigma q ^ 2
        - BlackScholes.bs_d2 S K T r sigma q ^ 2
      = 2 * (BlackScholes.bs_d1 S K T r sigma q * (sigma * Real.sqrt T))
        - sigma ^ 2 * Real.sqrt T ^ 2 := by
    unfold BlackScholes.bs_d2
    ring
  rw [expand, key, hsq]
  ring

lemma bs_forward_ratio (S K T r sigma q : ℝ) (hS : 0 < S) (hK : 0 < K)
    (hT : 0 < T) (hs : 0 < sigma) :
    Real.exp (BlackScholes.bs_d1 S K T r sigma q ^ 2 / 2) * (K * Real.exp (-r * T))
      = Real.exp (BlackScholes.bs_d2 S K T r sigma q ^ 2 / 2)
          * (S * Real.exp (-q * T)) := by
  have hdiff := bs_d_sq_diff S K r q hT hs
  have h1 : BlackScholes.bs_d1 S K T r sigma q ^ 2 / 2
      = BlackScholes.bs_d2 S K T r sigma q ^ 2 / 2
        + (Real.log (S / K) + (r - q) * T) := by
    linarith
  rw [h1, Real.exp_add, Real.exp_add, Real.exp_log (div_pos hS hK)]
  have h2 : Real.exp ((r - q) * T) * Real.exp (-r * T) = Real.exp (-q * T) := by
    rw [← Real.exp_add]
    congr 1
    ring
  have h3 : S / K * Real.exp ((r - q) * T) * (K * Real.exp (-r * T))
      = S * Real.exp (-q * T) := by
    rw [← h2]
    field_simp
    ring
  rw [mul_assoc, h3]

lemma exp_half_sq_cancel (x : ℝ) :
    Real.exp (x ^ 2 / 2) * Real.exp (-(x ^ 2 / 2)) = 1 := by
  rw [← Real.exp_add]
  simp

/-- The positive quantity equating the two discounted sides. -/
lemma bs_scale_eq (S K T r sigma q : ℝ) (hS : 0 < S) (hK : 0 < K)
    (hT : 0 < T) (hs : 0 < sigma) :
    K * Real.exp (-r * T) * Real.exp (-(BlackScholes.bs_d2 S K T r sigma q ^ 2 / 2))
      = S * Real.exp (-q * T)
          * Real.exp (-(BlackScholes.bs_d1 S K T r sigma q ^ 2 / 2)) := by
  have hfr := bs_forward_ratio S K T r sigma q hS hK hT hs
  have e1 := exp_half_sq_cancel (BlackScholes.bs_d1 S K T r sigma q)
  have e2 := exp_half_sq_cancel (BlackScholes.bs_d2 S K T r sigma q)
  linear_combination
    (Real.exp (-(BlackScholes.bs_d2 S K T r sigma q ^ 2 / 2))
      * Real.exp (-(BlackScholes.bs_d1 S K T r sigma q ^ 2 / 2))) * hfr
    - (K * Real.exp (-r * T)
      * Real.exp (-(BlackScholes.bs_d2 S K T r sigma q ^ 2 / 2))) * e1
    + (S * Real.exp (-q * T)
      * Real.exp (-(BlackScholes.bs_d1 S K T r sigma q ^ 2 / 2))) * e2

lemma bs_d2_le_d1 (S K r q : ℝ) {T sigma : ℝ} (hT : 0 < T) (hs : 0 < sigma) :
    BlackScholes.bs_d2 S K T r sigma q ≤ BlackScholes.bs_d1 S K T r sigma q := by
  unfold BlackScholes.bs_d2
  nlinarith [mul_pos hs (Real.sqrt_pos.2 hT)]

lemma bs_call_value_nonneg (S K T r sigma q : ℝ) (hS : 0 < S) (hK : 0 < K)
    (hT : 0 < T) (hs : 0 < sigma) : 0 ≤ BlackScholes.bs_call_value S K T r sigma q := by
  unfold BlackScholes.bs_call_value
  have hratio := normCdf_ratio_le (bs_d2_le_d1 S K r q hT hs)
  have hc := bs_scale_eq S K T r sigma q hS hK hT hs
  have e1 := exp_half_sq_cancel (BlackScholes.bs_d1 S K T r sigma q)
  have e2 := exp_half_sq_cancel (BlackScholes.bs_d2 S K T r sigma q)
  have hstep := mul_le_mul_of_nonneg_right hratio
    (by positivity :
      (0:ℝ) ≤ K * Real.exp (-r * T)
        * Real.exp (-(BlackScholes.bs_d2 S K T r sigma q ^ 2 / 2)))
  have hXa : normCdf (BlackScholes.bs_d2 S K T r sigma q)
        * Real.exp (BlackScholes.bs_d2 S K T r sigma q ^ 2 / 2)
        * (K * Real.exp (-r * T)
          * Real.exp (-(BlackScholes.bs_d2 S K T r sigma q ^ 2 / 2)))
      = K * Real.exp (-r * T) * normCdf (BlackScholes.bs_d2 S K T r sigma q) := by
    linear_combination
      (K * Real.exp (-r * T) * normCdf (BlackScholes.bs_d2 S K T r sigma q)) * e2
  have hXb : normCdf (BlackScholes.bs_d1 S K T r sigma q)
        * Real.exp (BlackScholes.bs_d1 S K T r sigma q ^ 2 / 2)
        * (K * Real.exp (-r * T)
          * Real.exp (-(BlackScholes.bs_d2 S K T r sigma q ^ 2 / 2)))
      = S * Real.exp (-q * T) * normCdf (BlackScholes.bs_d1 S K T r sigma q) := by
    linear_combination
      (normCdf (BlackScholes.bs_d1 S K T r sigma q)
        * Real.exp (BlackScholes.bs_d1 S K T r sigma q ^ 2 / 2)) * hc
      + (S * Real.exp (-q * T)
        * normCdf (BlackScholes.bs_d1 S K T r sigma q)) * e1
  linarith [hstep, hXa, hXb]

lemma bs_put_value_nonneg (S K T r sigma q : ℝ) (hS : 0 < S) (hK : 0 < K)
    (hT : 0 < T) (hs : 0 < sigma) : 0 ≤ BlackScholes.bs_put_value S K T r sigma q := by
  unfold BlackScholes.bs_put_value
  have hneg : -BlackScholes.bs_d1 S K T r sigma q
      ≤ -BlackScholes.bs_d2 S K T r sigma q :=
    neg_le_neg (bs_d2_le_d1 S K r q hT hs)
  have hratio := normCdf_ratio_le hneg
  simp only [Even.neg_pow (by norm_num : Even 2)] at hratio
  have hc := bs_scale_eq S K T r sigma q hS hK hT hs
  have e1 := exp_half_sq_cancel (BlackScholes.bs_d1 S K T r sigma q)
  have e2 := exp_half_sq_cancel (BlackScholes.bs_d2 S K T r sigma q)
  have hstep := mul_le_mul_of_nonneg_right hratio
    (by positivity :
      (0:ℝ) ≤ S * Real.exp (-q * T)
        * Real.exp (-(BlackScholes.bs_d1 S K T r sigma q ^ 2 / 2)))
  have hYb : normCdf (-BlackScholes.bs_d1 S K T r sigma q)
        * Real.exp (BlackScholes.bs_d1 S K T r sigma q ^ 2 / 2)
        * (S * Real.exp (-q * T)
          * Real.exp (-(BlackScholes.bs_d1 S K T r sigma q ^ 2 / 2)))
      = S * Real.exp (-q * T) * normCdf (-BlackScholes.bs_d1 S K T r sigma q) := by
    linear_combination
      (S * Real.exp (-q * T)
        * normCdf (-BlackScholes.bs_d1 S K T r sigma q)) * e1
  have hYa : normCdf (-BlackScholes.bs_d2 S K T r sigma q)
        * Real.exp (BlackScholes.bs_d2 S K T r sigma q ^ 2 / 2)
        * (S * Real.exp (-q * T)
          * Real.exp (-(BlackScholes.bs_d1 S K T r sigma q ^ 2 / 2)))
      = K * Real.exp (-r * T) * normCdf (-BlackScholes.bs_d2 S K T r sigma q) := by
    linear_combination
      (-(normCdf (-BlackScholes.bs_d2 S K T r sigma q)
        * Real.exp (BlackScholes.bs_d2 S K T r sigma q ^ 2 / 2))) * hc
      + (K * Real.exp (-r * T)
        * normCdf (-BlackScholes.bs_d2 S K T r sigma q)) * e2
  linarith [hstep, hYa, hYb]

lemma bs_parity (S K T r sigma q : ℝ) :
    BlackScholes.bs_call_value S K T r sigma q
        - BlackScholes.bs_put_value S K T r sigma q
      = S * Real.exp (-q * T) - K * Real.exp (-r * T) := by
  unfold BlackScholes.bs_call_value BlackScholes.bs_put_value
  have h1 := normCdf_add_neg (BlackScholes.bs_d1 S K T r sigma q)
  have h2 := normCdf_add_neg (BlackScholes.bs_d2 S K T r sigma q)
  linear_combination (S * Real.exp (-q * T)) * h1 - (K * Real.exp (-r * T)) * h2

/-- Claim C2: For every `S>0`, `K>0`, `T>0`, `sigma>0`, `r`, `q`: the returned
prices satisfy exact put-call parity
`call - put = S*exp(-q*T) - K*exp(-r*T)`, and the `max(.,0)` floors are
inactive because both unfloored Black-Scholes values are non-negative. -/
theorem claim_C2_put_call_parity (S K T r sigma q : ℝ)
    (hS : 0 < S) (hK : 0 < K) (hT : 0 < T) (hs : 0 < sigma) :
    BlackScholes.call_price S K T r sigma q
        - BlackScholes.put_price S K T r sigma q
      = S * Real.exp (-q * T) - K * Real.exp (-r * T) ∧
    0 ≤ BlackScholes.bs_call_value S K T r sigma q ∧
    0 ≤ BlackScholes.bs_put_value S K T r sigma q := by
  have hc := bs_call_value_nonneg S K T r sigma q hS hK hT hs
  have hp := bs_put_value_nonneg S K T r sigma q hS hK hT hs
  have hcond : ¬(T ≤ 0 ∨ sigma ≤ 0) := by
    push_neg
    exact ⟨hT, hs⟩
  refine ⟨?_, hc, hp⟩
  unfold BlackScholes.call_price BlackScholes.put_price
  rw [if_neg hcond, if_neg hcond, max_eq_left hc, max_eq_left hp]
  exact bs_parity S K T r sigma q

/-- Witness for C2 at `S=1, K=1, T=1, r=0, sigma=1, q=0`. -/
theorem claim_C2_witness :
    BlackScholes.call_price 1 1 1 0 1 0 - BlackScholes.put_price 1 1 1 0 1 0
      = 1 * Real.exp (-0 * 1) - 1 * Real.exp (-0 * 1) ∧
    0 ≤ BlackScholes.bs_call_value 1 1 1 0 1 0 ∧
    0 ≤ BlackScholes.bs_put_value 1 1 1 0 1 0 :=
  claim_C2_put_call_parity 1 1 1 0 1 0 (by norm_num) (by norm_num) (by norm_num)
    (by norm_num)

end
